import Mathlib

/-!
Shallow embedding of `src/markov_generator.py` (class `MarkovTransitionGenerator`).

Conventions used throughout:
* Python strings are Lean `String`s; only ASCII inputs are modelled (every
  concrete input appearing in a theorem below is ASCII).
* A context key is a `List String`.  For `order = 1` the Python code uses the
  bare word as the dictionary key and for `order > 1` a tuple of words; both are
  rendered here as a list of words (`[w]` for the bare word), which preserves
  key equality and therefore all dictionary behaviour.
* Python `dict`s / `Counter`s (which preserve insertion order) are association
  lists; updating an existing key keeps its position, a fresh key is appended.
* Fallible Python code (raising `IndexError` / `ZeroDivisionError`) is rendered
  with `Option` / `Except`.
* `round(count / total_count * die_sides)` is computed by Python in IEEE double
  arithmetic with round-half-to-even; it is modelled here by exact rational
  rounding (`roundHalfEven (count * die_sides) total_count`).  On every concrete
  input evaluated in this file the double computation and the exact computation
  agree.
-/

namespace CampGames

abbrev Token := String

abbrev Ctx := List Token

/-- A context's next-token frequency table: `collections.Counter` contents in
insertion order (first-seen token first). -/
abbrev Freqs := List (Token × Nat)

/-- A die mapping for one context: Python dict `word -> list of die faces`,
in insertion order. -/
abbrev DieMap := List (Token × List Nat)

/-- `self.transitions`: dict from context to its `Counter`, in insertion order. -/
abbrev TransTable := List (Ctx × Freqs)

/-! ### Tokenizer (`clean_text`, lines 18-22)

`re.findall(r'\b[a-zA-Z]+\b|[.!?]', text.lower())`: maximal alphabetic runs
whose neighbouring characters are not word characters (`[a-zA-Z0-9_]`), plus
the individual characters `.`, `!`, `?`; everything else is discarded. -/

/-- ASCII model of Python `str.lower` on one character. -/
def pyLowerChar (c : Char) : Char :=
  if 'A' ≤ c ∧ c ≤ 'Z' then Char.ofNat (c.toNat + 32) else c

def isAsciiLetter (c : Char) : Bool :=
  decide (('a' ≤ c ∧ c ≤ 'z') ∨ ('A' ≤ c ∧ c ≤ 'Z'))

/-- Python regex word character `\w` restricted to ASCII: `[a-zA-Z0-9_]`. -/
def isWordChar (c : Char) : Bool :=
  isAsciiLetter c || decide ('0' ≤ c ∧ c ≤ '9') || decide (c = '_')

def isTermPunct (c : Char) : Bool :=
  decide (c = '.' ∨ c = '!' ∨ c = '?')

/-- Scanner equivalent of the findall loop.  `run` is the current (reversed)
alphabetic run, `runOk` records that the character before the run was not a
word character (the leading `\b`), `prevWord` whether the previous character
was a word character. -/
def scanAux : Bool → List Char → Bool → List Char → List Token
  | _, run, runOk, [] =>
      if run ≠ [] ∧ runOk = true then [String.mk run.reverse] else []
  | prevWord, run, runOk, c :: cs =>
      if isAsciiLetter c then
        if run.isEmpty then scanAux true [c] (!prevWord) cs
        else scanAux true (c :: run) runOk cs
      else
        (if run ≠ [] ∧ runOk = true ∧ isWordChar c = false then
            [String.mk run.reverse]
          else []) ++
        (if isTermPunct c then [String.mk [c]] else []) ++
        scanAux (isWordChar c) [] false cs

/-- `clean_text` (lines 18-22). -/
def cleanText (s : String) : List Token :=
  scanAux false [] false (s.data.map pyLowerChar)

/-! ### Association-list dictionary operations -/

/-- Python dict lookup (first matching key; keys are unique in all real uses). -/
def lookupKey {κ β : Type} [DecidableEq κ] : List (κ × β) → κ → Option β
  | [], _ => none
  | (k1, v) :: rest, k => if k = k1 then some v else lookupKey rest k

/-- Python dict assignment `m[k] = v`: update in place, or append a fresh key. -/
def setKey {κ β : Type} [DecidableEq κ] : List (κ × β) → κ → β → List (κ × β)
  | [], k, v => [(k, v)]
  | (k1, v1) :: rest, k, v =>
      if k = k1 then (k1, v) :: rest else (k1, v1) :: setKey rest k v

/-- Python `m[k].extend(v)` for a dict of lists (no-op when `k` is absent; it
is only invoked on present keys). -/
def extendKey : DieMap → Token → List Nat → DieMap
  | [], _, _ => []
  | (k1, v1) :: rest, k, v =>
      if k = k1 then (k1, v1 ++ v) :: rest else (k1, v1) :: extendKey rest k v

/-- `Counter` increment `m[k] += 1` (missing keys start at 0). -/
def bumpCount {κ : Type} [DecidableEq κ] : List (κ × Nat) → κ → List (κ × Nat)
  | [], k => [(k, 1)]
  | (k1, c) :: rest, k =>
      if k = k1 then (k1, c + 1) :: rest else (k1, c) :: bumpCount rest k

/-- `self.transitions[current_state][next_word] += 1` on a
`defaultdict(Counter)`. -/
def bumpTrans : TransTable → Ctx → Token → TransTable
  | [], c, n => [(c, [(n, 1)])]
  | (c1, m) :: rest, c, n =>
      if c = c1 then (c1, bumpCount m n) :: rest else (c1, m) :: bumpTrans rest c n

/-! ### Training (`train`, lines 24-50) -/

/-- The inner loop of `train` for one text: for every
`i in range(len(words) - order)` record the transition from
`words[i:i+order]` to `words[i+order]`.  (The index `i + order` is always
in range, so the `getD` default is never used.) -/
def trainText (order : Nat) (tr : TransTable) (text : String) : TransTable :=
  let ws := cleanText text
  (List.range (ws.length - order)).foldl
    (fun t i => bumpTrans t ((ws.drop i).take order) (ws.getD (i + order) "")) tr

/-- `train` over a list of texts (the `self.word_counts` counter is not
modelled; no part of the observed behaviour reads it). -/
def train (order : Nat) (texts : List String) : TransTable :=
  texts.foldl (trainText order) []

/-- The recorded count `transitions[c][n]` (0 when absent). -/
def countTrans (tr : TransTable) (c : Ctx) (n : Token) : Nat :=
  match lookupKey tr c with
  | none => 0
  | some m =>
    match lookupKey m n with
    | none => 0
    | some k => k

/-- Number of sliding-window positions of one token list producing the pair
`(c, n)` — the count demanded by the specification of the trainer. -/
def specWindowCount (ws : List Token) (order : Nat) (c : Ctx) (n : Token) : Nat :=
  ((List.range (ws.length - order)).filter
    (fun i => decide ((ws.drop i).take order = c ∧ ws.getD (i + order) "" = n))).length

/-! ### Ranking (`Counter.most_common`, line 66)

CPython's `most_common()` is `sorted(items, key=itemgetter(1), reverse=True)`
with a stable sort, i.e. descending count with ties in insertion order.  We
sort the insertion-indexed entries by the total order `rankLE`. -/

/-- `(index, (token, count))` entry `a` ranks no lower than `b`: larger count,
or equal count and smaller-or-equal insertion index. -/
def rankLE (a b : Nat × (Token × Nat)) : Prop :=
  b.2.2 < a.2.2 ∨ (a.2.2 = b.2.2 ∧ a.1 ≤ b.1)

instance : DecidableRel rankLE := fun a b =>
  inferInstanceAs (Decidable (b.2.2 < a.2.2 ∨ (a.2.2 = b.2.2 ∧ a.1 ≤ b.1)))

instance : IsTotal (Nat × (Token × Nat)) rankLE :=
  ⟨by intro a b; unfold rankLE; omega⟩

instance : IsTrans (Nat × (Token × Nat)) rankLE :=
  ⟨by intro a b c; unfold rankLE; omega⟩

/-- `next_words.most_common()`. -/
def mostCommon (nw : Freqs) : Freqs :=
  (List.insertionSort rankLE nw.enum).map Prod.snd

/-! ### Outcome allocator (`_create_single_die_mapping`, lines 85-117) -/

/-- Round-half-to-even of the fraction `num / den` (`den = 0` never reached:
the caller guards against a zero total).  Models Python's `round`. -/
def roundHalfEven (num den : Nat) : Nat :=
  let q := num / den
  let r := num % den
  if 2 * r < den then q
  else if den < 2 * r then q + 1
  else if q % 2 = 0 then q else q + 1

/-- `sides_for_word = max(1, round(count / total_count * die_sides))`
(line 96). -/
def share (total d c : Nat) : Nat := max 1 (roundHalfEven (c * d) total)

/-- The inner face-assignment loop (lines 99-103): starting at face `cur`,
take up to `s` faces while staying `≤ d`; returns the assigned faces and the
new cursor. -/
def assignRolls (d : Nat) : Nat → Nat → List Nat × Nat
  | 0, cur => ([], cur)
  | s + 1, cur =>
      if cur ≤ d then
        let p := assignRolls d s (cur + 1)
        (cur :: p.1, p.2)
      else ([], cur)

/-- One iteration of the `for word, count in word_counts` loop
(lines 93-106). -/
def allocStep (total d : Nat) (st : DieMap × Nat) (p : Token × Nat) : DieMap × Nat :=
  let s := share total d p.2
  let rr := assignRolls d s st.2
  (if rr.1 = [] then st.1 else setKey st.1 p.1 rr.1, rr.2)

/-- `_create_single_die_mapping(word_counts, die_sides)`.  Returns `none` in
the two failing situations of the Python code: `ZeroDivisionError` when the
list is non-empty with total count 0, and `IndexError` at `word_counts[0]`
when the list is empty but the remainder fill runs. -/
def createSingleDieMapping (wc : Freqs) (d : Nat) : Option DieMap :=
  let total := (wc.map Prod.snd).sum
  if wc ≠ [] ∧ total = 0 then none
  else
    let st := wc.foldl (allocStep total d) ([], 1)
    if st.2 ≤ d then
      match wc with
      | [] => none
      | (w0, _) :: _ =>
        let rem := List.range' st.2 (d + 1 - st.2)
        some (if (lookupKey st.1 w0).isSome then extendKey st.1 w0 rem
              else setKey st.1 w0 rem)
    else some st.1

/-- The per-state body of `generate_dice_mapping` (lines 64-81): rank, then
either use the full list or truncate to the `max_dice_sides` most common. -/
def allocFor (nw : Freqs) (d : Nat) : Option DieMap :=
  let cw := mostCommon nw
  if cw.length ≤ d then createSingleDieMapping cw d
  else createSingleDieMapping (cw.take d) d

/-- `generate_dice_mapping(max_dice_sides)` (lines 52-83), iterating the
transition dict in insertion order. -/
def generateDiceMapping : TransTable → Nat → Option (List (Ctx × DieMap))
  | [], _ => some []
  | (s, nw) :: rest, d =>
    match allocFor nw d, generateDiceMapping rest d with
    | some m, some ms => some ((s, m) :: ms)
    | _, _ => none

/-- Early-face-exhaustion freedom for a retained (already ranked and
truncated) list: every token is reached while the face cursor is still
`≤ d`, i.e. the face budget is never exhausted before a retained token. -/
def noExhaustion (cw : Freqs) (d : Nat) : Bool :=
  let total := (cw.map Prod.snd).sum
  (List.range cw.length).all
    (fun i => decide (1 + ((cw.take i).map (fun p => share total d p.2)).sum ≤ d))

/-! ### Sampler (`generate_sample_story`, lines 171-235) -/

/-- The roll-to-word scan (lines 202-207): first entry, in stored dict order,
whose face list contains the roll. -/
def selectNext : DieMap → Nat → Option Token
  | [], _ => none
  | (w, rolls) :: rest, roll =>
      if roll ∈ rolls then some w else selectNext rest roll

inductive SampleOutcome where
  | noNext : SampleOutcome
  | terminal : SampleOutcome
  | next : Token → SampleOutcome
deriving DecidableEq

/-- One dice-roll step of the sampling loop (lines 198-217): no selected word
(falsy `next_word`, including the empty string) forces a sentence end; a
selected `.`, `!` or `?` ends the sentence; otherwise the word is produced. -/
def sampleStep (wm : DieMap) (roll : Nat) : SampleOutcome :=
  match selectNext wm roll with
  | none => SampleOutcome.noNext
  | some w =>
      if w = "" then SampleOutcome.noNext
      else if w = "." ∨ w = "!" ∨ w = "?" then SampleOutcome.terminal
      else SampleOutcome.next w

/-- Support of Python `random.randint(lo, hi)` (the set of values the draw
ranges over uniformly). -/
def randintSupport (lo hi : Nat) : List Nat := List.range' lo (hi + 1 - lo)

/-- The sampler's roll is `random.randint(1, 6)` (line 200) — the literal
constants 1 and 6, independent of the die mapping's `die_sides`. -/
def samplerRollSupport : List Nat := randintSupport 1 6

inductive SampleError where
  | indexError : SampleError
deriving DecidableEq

/-- Python `random.choice(xs)` with the randomness injected as an index seed
`r`: raises `IndexError` on an empty sequence, otherwise picks an element. -/
def randomChoice {α : Type} (xs : List α) (r : Nat) : Except SampleError α :=
  match xs with
  | [] => Except.error SampleError.indexError
  | x :: rest => Except.ok ((x :: rest).get ⟨r % (rest.length + 1), Nat.mod_lt r (Nat.succ_pos rest.length)⟩)

/-- The start-word candidates of `generate_sample_story` (line 174):
`[k for k in dice_mappings.keys() if k != '.']`. -/
def startCandidates (dm : List (Ctx × DieMap)) : List Ctx :=
  (dm.map Prod.fst).filter (fun k => k != ["."])

/-- Start-word resolution (lines 173-174): a caller-supplied start word is
used as-is; otherwise `random.choice` over the non-terminal keys. -/
def resolveStartWord (dm : List (Ctx × DieMap)) (sw : Option Ctx) (r : Nat) :
    Except SampleError Ctx :=
  match sw with
  | some s => Except.ok s
  | none => randomChoice (startCandidates dm) r

/-! ### Helper lemmas -/

/-- Unfolding of `_create_single_die_mapping` on a non-empty list with nonzero
total, in terms of the result of its assignment loop. -/
theorem createSingleDieMapping_shape (w0 : Token) (c0 : Nat) (rest : Freqs)
    (d : Nat) (m : DieMap) (cur : Nat)
    (htot : (((w0, c0) :: rest).map Prod.snd).sum ≠ 0)
    (hfold : ((w0, c0) :: rest).foldl
        (allocStep ((((w0, c0) :: rest).map Prod.snd).sum) d) ([], 1) = (m, cur)) :
    createSingleDieMapping ((w0, c0) :: rest) d =
      if cur ≤ d then
        some (if (lookupKey m w0).isSome then
                extendKey m w0 (List.range' cur (d + 1 - cur))
              else setKey m w0 (List.range' cur (d + 1 - cur)))
      else some m := by
  unfold createSingleDieMapping
  rw [if_neg (fun h => htot h.2)]
  rw [hfold]

/-! ### Claim theorems -/

/-- Claim C7: sampling from an empty die mapping with no caller-supplied start
word hits Python's `IndexError` (from `random.choice` on the empty candidate
list) — precisely the "unrelated indexing fault" the specification says must
not happen; there is no distinct "no contexts available" condition in the
code.  The theorem evaluates the code at the failing input. -/
theorem claim_C7_thm :
    ∀ r : Nat, resolveStartWord ([] : List (Ctx × DieMap)) none r =
      Except.error SampleError.indexError := by
  intro r; rfl

/-- Claim C6: the code performs no validation of `order` or `dieSides`.
Training with `order = 0` and allocating with `dieSides = 0` both run to
completion and return ordinary values instead of being rejected.  The theorem
evaluates the code at the failing configurations. -/
theorem claim_C6_thm :
    train 0 ["a b"] = [([], [("a", 1), ("b", 1)])] ∧
    generateDiceMapping (train 1 ["a b c"]) 0 = some [(["a"], []), (["b"], [])] := by
  constructor
  · rfl
  · rfl

/-- Claim C4 counterexample: training on `"a b!"` records a transition entry
for the token `"!"` itself (count 1) and none for `"."`, and the generated die
mapping likewise contains a separate `"!"` entry — refuting the claim that
`!` and `?` are never separate entries and are counted under `"."`. -/
theorem claim_C4_counterexample :
    cleanText "a b!" = ["a", "b", "!"] ∧
    countTrans (train 1 ["a b!"]) ["b"] "!" = 1 ∧
    countTrans (train 1 ["a b!"]) ["b"] "." = 0 ∧
    generateDiceMapping (train 1 ["a b!"]) 6 =
      some [(["a"], [("b", [1, 2, 3, 4, 5, 6])]), (["b"], [("!", [1, 2, 3, 4, 5, 6])])] := by
  refine ⟨rfl, rfl, rfl, rfl⟩

/-- Claim C2 counterexample: for context `"x"` the counts are
`a:5, b:1, c:1, d:1, e:1, f:1` (six distinct tokens, `dieSides = 6`, so all six
are retained — the ranked list truncated to 6 is the full list), yet the
allocator's output omits the retained tokens `e` and `f`: over-rounding gives
`a` three faces and the face budget is exhausted after `d`. -/
theorem claim_C2_counterexample :
    train 1 ["x a x a x a x a x a x b x c x d x e x f"] =
      [(["x"], [("a", 5), ("b", 1), ("c", 1), ("d", 1), ("e", 1), ("f", 1)]),
       (["a"], [("x", 5)]), (["b"], [("x", 1)]), (["c"], [("x", 1)]),
       (["d"], [("x", 1)]), (["e"], [("x", 1)])] ∧
    (mostCommon [("a", 5), ("b", 1), ("c", 1), ("d", 1), ("e", 1), ("f", 1)]).take 6 =
      [("a", 5), ("b", 1), ("c", 1), ("d", 1), ("e", 1), ("f", 1)] ∧
    createSingleDieMapping [("a", 5), ("b", 1), ("c", 1), ("d", 1), ("e", 1), ("f", 1)] 6 =
      some [("a", [1, 2, 3]), ("b", [4]), ("c", [5]), ("d", [6])] ∧
    generateDiceMapping (train 1 ["x a x a x a x a x a x b x c x d x e x f"]) 6 =
      some [(["x"], [("a", [1, 2, 3]), ("b", [4]), ("c", [5]), ("d", [6])]),
            (["a"], [("x", [1, 2, 3, 4, 5, 6])]), (["b"], [("x", [1, 2, 3, 4, 5, 6])]),
            (["c"], [("x", [1, 2, 3, 4, 5, 6])]), (["d"], [("x", [1, 2, 3, 4, 5, 6])]),
            (["e"], [("x", [1, 2, 3, 4, 5, 6])])] := by
  refine ⟨by decide, by decide, by decide, by decide⟩

/-- Claim C5 counterexample: a die mapping built with `dieSides = 10` gives
token `"z"` the faces 7-10, but the sampler's roll is `random.randint(1, 6)`
whatever the mapping's `dieSides` was: 7 is a legal face of the mapping yet
outside the roll support, and no supported roll ever selects `"z"`. -/
theorem claim_C5_counterexample :
    generateDiceMapping (train 1 ["c a c a c a c z c z"]) 10 =
      some [(["c"], [("a", [1, 2, 3, 4, 5, 6]), ("z", [7, 8, 9, 10])]),
            (["a"], [("c", [1, 2, 3, 4, 5, 6, 7, 8, 9, 10])]),
            (["z"], [("c", [1, 2, 3, 4, 5, 6, 7, 8, 9, 10])])] ∧
    (7 ∈ List.range' 1 10) ∧ 7 ∉ samplerRollSupport ∧
    selectNext [("a", [1, 2, 3, 4, 5, 6]), ("z", [7, 8, 9, 10])] 7 = some "z" ∧
    samplerRollSupport.map
        (fun r => selectNext [("a", [1, 2, 3, 4, 5, 6]), ("z", [7, 8, 9, 10])] r) =
      [some "a", some "a", some "a", some "a", some "a", some "a"] := by
  refine ⟨by decide, by decide, by decide, by decide, by decide⟩

/-- Claim C8: for any context with exactly five distinct next-tokens each of
count 1 and `dieSides = 6`, every token gets exactly one face
(`round(1/5 * 6) = 1`) and the remainder fill hands the one leftover face 6 to
the first-ranked token, which thus holds exactly two faces. -/
theorem claim_C8 (t1 t2 t3 t4 t5 : Token)
    (h21 : t2 ≠ t1) (h31 : t3 ≠ t1) (h32 : t3 ≠ t2)
    (h41 : t4 ≠ t1) (h42 : t4 ≠ t2) (h43 : t4 ≠ t3)
    (h51 : t5 ≠ t1) (h52 : t5 ≠ t2) (h53 : t5 ≠ t3) (h54 : t5 ≠ t4) :
    createSingleDieMapping [(t1, 1), (t2, 1), (t3, 1), (t4, 1), (t5, 1)] 6 =
      some [(t1, [1, 6]), (t2, [2]), (t3, [3]), (t4, [4]), (t5, [5])] := by
  have s1 : allocStep 5 6 ([], 1) (t1, 1) = ([(t1, [1])], 2) := by
    simp [allocStep, share, assignRolls, setKey]
  have s2 : allocStep 5 6 ([(t1, [1])], 2) (t2, 1) = ([(t1, [1]), (t2, [2])], 3) := by
    simp [allocStep, share, assignRolls, setKey, h21]
  have s3 : allocStep 5 6 ([(t1, [1]), (t2, [2])], 3) (t3, 1) =
      ([(t1, [1]), (t2, [2]), (t3, [3])], 4) := by
    simp [allocStep, share, assignRolls, setKey, h31, h32]
  have s4 : allocStep 5 6 ([(t1, [1]), (t2, [2]), (t3, [3])], 4) (t4, 1) =
      ([(t1, [1]), (t2, [2]), (t3, [3]), (t4, [4])], 5) := by
    simp [allocStep, share, assignRolls, setKey, h41, h42, h43]
  have s5 : allocStep 5 6 ([(t1, [1]), (t2, [2]), (t3, [3]), (t4, [4])], 5) (t5, 1) =
      ([(t1, [1]), (t2, [2]), (t3, [3]), (t4, [4]), (t5, [5])], 6) := by
    simp [allocStep, share, assignRolls, setKey, h51, h52, h53, h54]
  have htot : (([(t1, 1), (t2, 1), (t3, 1), (t4, 1), (t5, 1)] : Freqs).map Prod.snd).sum = 5 := by
    simp
  have hfold : ([(t1, 1), (t2, 1), (t3, 1), (t4, 1), (t5, 1)] : Freqs).foldl
      (allocStep ((([(t1, 1), (t2, 1), (t3, 1), (t4, 1), (t5, 1)] : Freqs).map Prod.snd).sum) 6)
      ([], 1) = ([(t1, [1]), (t2, [2]), (t3, [3]), (t4, [4]), (t5, [5])], 6) := by
    rw [htot]
    simp only [List.foldl_cons, List.foldl_nil, s1, s2, s3, s4, s5]
  rw [createSingleDieMapping_shape t1 1 _ 6 _ 6 (by rw [htot]; decide) hfold]
  rw [if_pos (by decide)]
  have hlk : (lookupKey [(t1, [1]), (t2, [2]), (t3, [3]), (t4, [4]), (t5, [5])] t1).isSome = true := by
    simp [lookupKey]
  rw [if_pos hlk]
  show some (extendKey _ t1 (List.range' 6 1)) = _
  simp [extendKey, List.range']

/-- Witness for C8 at the concrete tokens a, b, c, d, e. -/
theorem claim_C8_witness :
    createSingleDieMapping [("a", 1), ("b", 1), ("c", 1), ("d", 1), ("e", 1)] 6 =
      some [("a", [1, 6]), ("b", [2]), ("c", [3]), ("d", [4]), ("e", [5])] :=
  claim_C8 "a" "b" "c" "d" "e" (by decide) (by decide) (by decide) (by decide)
    (by decide) (by decide) (by decide) (by decide) (by decide) (by decide)


theorem countTrans_nil (c : Ctx) (n : Token) : countTrans [] c n = 0 := rfl

theorem countTrans_cons_eq (c1 : Ctx) (m : Freqs) (rest : TransTable)
    (c' : Ctx) (n' : Token) (h : c' = c1) :
    countTrans ((c1, m) :: rest) c' n' = (lookupKey m n').getD 0 := by
  simp [countTrans, lookupKey, h]
  cases lookupKey m n' <;> simp

theorem countTrans_cons_ne (c1 : Ctx) (m : Freqs) (rest : TransTable)
    (c' : Ctx) (n' : Token) (h : ¬ c' = c1) :
    countTrans ((c1, m) :: rest) c' n' = countTrans rest c' n' := by
  simp [countTrans, lookupKey, h]

theorem lookupKey_bumpCount {κ : Type} [DecidableEq κ] (m : List (κ × Nat)) (k k' : κ) :
    lookupKey (bumpCount m k) k' =
      if k' = k then some ((lookupKey m k).getD 0 + 1) else lookupKey m k' := by
  induction m with
  | nil =>
    by_cases h : k' = k <;> simp [bumpCount, lookupKey, h]
  | cons p rest ih =>
    obtain ⟨k1, c⟩ := p
    by_cases hk : k = k1
    · subst hk
      by_cases h : k' = k <;> simp [bumpCount, lookupKey, h]
    · by_cases h : k' = k1
      · subst h
        simp [bumpCount, lookupKey, hk, Ne.symm hk]
      · simp [bumpCount, lookupKey, hk, h, ih]

theorem countTrans_bumpTrans (tr : TransTable) (c : Ctx) (n : Token) (c' : Ctx) (n' : Token) :
    countTrans (bumpTrans tr c n) c' n' =
      countTrans tr c' n' + if c' = c ∧ n' = n then 1 else 0 := by
  induction tr with
  | nil =>
    by_cases h1 : c' = c
    · subst h1
      rw [show bumpTrans [] c' n = [(c', [(n, 1)])] from rfl,
        countTrans_cons_eq _ _ _ _ _ rfl, countTrans_nil]
      by_cases h2 : n' = n <;> simp [lookupKey, h2]
    · rw [show bumpTrans [] c n = [(c, [(n, 1)])] from rfl,
        countTrans_cons_ne _ _ _ _ _ h1]
      simp [h1, countTrans_nil]
  | cons p rest ih =>
    obtain ⟨c1, m⟩ := p
    by_cases hc : c = c1
    · subst hc
      rw [show bumpTrans ((c, m) :: rest) c n = (c, bumpCount m n) :: rest from by
        simp [bumpTrans]]
      by_cases h1 : c' = c
      · rw [countTrans_cons_eq _ _ _ _ _ h1, countTrans_cons_eq _ _ _ _ _ h1,
          lookupKey_bumpCount]
        by_cases h2 : n' = n
        · subst h2; simp [h1]
        · simp [h1, h2]
      · rw [countTrans_cons_ne _ _ _ _ _ h1, countTrans_cons_ne _ _ _ _ _ h1]
        simp [h1]
    · rw [show bumpTrans ((c1, m) :: rest) c n = (c1, m) :: bumpTrans rest c n from by
        simp [bumpTrans, hc]]
      by_cases h1 : c' = c1
      · rw [countTrans_cons_eq _ _ _ _ _ h1, countTrans_cons_eq _ _ _ _ _ h1]
        have : ¬ c' = c := fun hh => hc ((hh ▸ h1 : c = c1))
        simp [this]
      · rw [countTrans_cons_ne _ _ _ _ _ h1, countTrans_cons_ne _ _ _ _ _ h1, ih]

theorem countTrans_windows (ws : List Token) (order : Nat) (c : Ctx) (n : Token)
    (k : Nat) (tr : TransTable) :
    countTrans ((List.range k).foldl
        (fun t i => bumpTrans t ((ws.drop i).take order) (ws.getD (i + order) "")) tr) c n =
      countTrans tr c n +
        ((List.range k).filter
          (fun i => decide ((ws.drop i).take order = c ∧ ws.getD (i + order) "" = n))).length := by
  induction k generalizing tr with
  | zero => simp
  | succ k ih =>
    rw [List.range_succ, List.foldl_append, List.filter_append, List.length_append]
    rw [List.foldl_cons, List.foldl_nil]
    rw [countTrans_bumpTrans, ih]
    by_cases h1 : (ws.drop k).take order = c
    · subst h1
      by_cases h2 : ws.getD (k + order) "" = n
      · subst h2
        simp [Nat.add_assoc]
      · rw [List.getD_eq_getElem?_getD] at h2
        simp [h2, Ne.symm h2]
    · simp [h1, Ne.symm h1]

theorem countTrans_trainText (order : Nat) (tr : TransTable) (t : String)
    (c : Ctx) (n : Token) :
    countTrans (trainText order tr t) c n =
      countTrans tr c n + specWindowCount (cleanText t) order c n := by
  unfold trainText specWindowCount
  exact countTrans_windows (cleanText t) order c n ((cleanText t).length - order) tr

/-- Claim C9: training processes each text independently; the final count for
a (context, next) pair is exactly the sum, over the texts, of the number of
window positions `i < len(tokens) - order` of that text whose context slice is
`c` and whose following token is `n`.  In particular no pair spanning two
texts is ever recorded. -/
theorem claim_C9 (texts : List String) (order : Nat) (c : Ctx) (n : Token) :
    countTrans (train order texts) c n =
      (texts.map (fun t => specWindowCount (cleanText t) order c n)).sum := by
  suffices h : ∀ tr, countTrans (texts.foldl (trainText order) tr) c n =
      countTrans tr c n + (texts.map (fun t => specWindowCount (cleanText t) order c n)).sum by
    have h0 := h []
    rw [countTrans_nil] at h0
    simpa [train] using h0
  induction texts with
  | nil => intro tr; simp
  | cons t rest ih =>
    intro tr
    rw [List.foldl_cons, ih, countTrans_trainText]
    simp [Nat.add_assoc]



/-- The words (keys) of a die mapping. -/
def keys (m : DieMap) : List Token := m.map Prod.fst

/-- All faces of a die mapping, in stored order. -/
def faces (m : DieMap) : List Nat := (m.map Prod.snd).flatten

theorem share_pos (total d c : Nat) : 1 ≤ share total d c := le_max_left _ _

theorem keys_append (m m' : DieMap) : keys (m ++ m') = keys m ++ keys m' := by
  simp [keys]

theorem faces_append (m m' : DieMap) : faces (m ++ m') = faces m ++ faces m' := by
  simp [faces]

theorem setKey_of_lookup_none {κ β : Type} [DecidableEq κ]
    (m : List (κ × β)) (k : κ) (v : β) (h : lookupKey m k = none) :
    setKey m k v = m ++ [(k, v)] := by
  induction m with
  | nil => rfl
  | cons p rest ih =>
    obtain ⟨k1, v1⟩ := p
    by_cases hk : k = k1
    · simp [lookupKey, hk] at h
    · simp [lookupKey, hk] at h
      simp [setKey, hk, ih h]

theorem lookupKey_append_right {κ β : Type} [DecidableEq κ]
    (m m' : List (κ × β)) (k : κ) (h : lookupKey m k = none) :
    lookupKey (m ++ m') k = lookupKey m' k := by
  induction m with
  | nil => rfl
  | cons p rest ih =>
    obtain ⟨k1, v1⟩ := p
    by_cases hk : k = k1
    · simp [lookupKey, hk] at h
    · simp [lookupKey, hk] at h ⊢
      exact ih h

theorem lookupKey_append_left {κ β : Type} [DecidableEq κ]
    (m m' : List (κ × β)) (k : κ) (v : β) (h : lookupKey m k = some v) :
    lookupKey (m ++ m') k = some v := by
  induction m with
  | nil => simp [lookupKey] at h
  | cons p rest ih =>
    obtain ⟨k1, v1⟩ := p
    by_cases hk : k = k1
    · simp [lookupKey, hk] at h ⊢
      exact h
    · simp [lookupKey, hk] at h ⊢
      exact ih h

theorem assignRolls_eq (d : Nat) (s : Nat) :
    ∀ cur, cur ≤ d + 1 →
      assignRolls d s cur = (List.range' cur (min s (d + 1 - cur)), min (cur + s) (d + 1)) := by
  induction s with
  | zero =>
    intro cur h
    simp [assignRolls]
    omega
  | succ s ih =>
    intro cur h
    by_cases hc : cur ≤ d
    · have h1 : cur + 1 ≤ d + 1 := by omega
      rw [show assignRolls d (s + 1) cur =
          (cur :: (assignRolls d s (cur + 1)).1, (assignRolls d s (cur + 1)).2) from by
        simp [assignRolls, hc]]
      rw [ih (cur + 1) h1]
      have e1 : min (s + 1) (d + 1 - cur) = min s (d + 1 - (cur + 1)) + 1 := by omega
      have e2 : min (cur + (s + 1)) (d + 1) = min (cur + 1 + s) (d + 1) := by omega
      rw [e1, List.range'_succ, e2]
    · have hcur : cur = d + 1 := by omega
      rw [show assignRolls d (s + 1) cur = ([], cur) from by simp [assignRolls, hc]]
      subst hcur
      simp

theorem allocStep_eq (total d : Nat) (m : DieMap) (cur : Nat) (p : Token × Nat)
    (h : cur ≤ d + 1) :
    allocStep total d (m, cur) p =
      (if cur ≤ d then
          setKey m p.1 (List.range' cur (min (share total d p.2) (d + 1 - cur)))
        else m,
       min (cur + share total d p.2) (d + 1)) := by
  have ha := assignRolls_eq d (share total d p.2) cur h
  by_cases hc : cur ≤ d
  · have hne : List.range' cur (min (share total d p.2) (d + 1 - cur)) ≠ [] := by
      have hs := share_pos total d p.2
      simp only [ne_eq, List.range'_eq_nil]
      omega
    simp [allocStep, ha, hc, hne]
  · have hcur : cur = d + 1 := by omega
    have hz : min (share total d p.2) (d + 1 - cur) = 0 := by omega
    simp [allocStep, ha, hc, hz]



theorem allocLoop_master (total d : Nat) :
    ∀ (wc : Freqs) (m : DieMap) (cur : Nat),
      1 ≤ cur → cur ≤ d + 1 →
      (wc.map Prod.fst).Nodup →
      (∀ p ∈ wc, lookupKey m p.1 = none) →
      cur ≤ (wc.foldl (allocStep total d) (m, cur)).2 ∧
      (wc.foldl (allocStep total d) (m, cur)).2 ≤ d + 1 ∧
      faces (wc.foldl (allocStep total d) (m, cur)).1 =
        faces m ++ List.range' cur ((wc.foldl (allocStep total d) (m, cur)).2 - cur) ∧
      (∃ S : List Token, S.Sublist (wc.map Prod.fst) ∧
        keys (wc.foldl (allocStep total d) (m, cur)).1 = keys m ++ S) ∧
      (∀ w' v, lookupKey m w' = some v →
        lookupKey (wc.foldl (allocStep total d) (m, cur)).1 w' = some v) ∧
      ((∀ i, i < wc.length →
          cur + ((wc.take i).map (fun p => share total d p.2)).sum ≤ d) →
        ∀ p ∈ wc, ∃ v, lookupKey (wc.foldl (allocStep total d) (m, cur)).1 p.1 = some v ∧ v ≠ []) := by
  intro wc
  induction wc with
  | nil =>
    intro m cur h1 h2 hnd hfresh
    refine ⟨le_refl _, h2, by simp, ⟨[], List.nil_sublist _, by simp⟩, fun w' v hv => hv, ?_⟩
    intro _ p hp
    simp at hp
  | cons p wc' ih =>
    intro m cur h1 h2 hnd hfresh
    obtain ⟨w, c⟩ := p
    have hw_none : lookupKey m w = none := hfresh (w, c) (by simp)
    have hnd' : (wc'.map Prod.fst).Nodup := (List.nodup_cons.mp (by simpa using hnd)).2
    have hw_notin : w ∉ wc'.map Prod.fst := (List.nodup_cons.mp (by simpa using hnd)).1
    have hs := share_pos total d c
    rw [List.foldl_cons, allocStep_eq total d m cur (w, c) h2]
    by_cases hcd : cur ≤ d
    · rw [if_pos hcd]
      have hrw : setKey m w (List.range' cur (min (share total d c) (d + 1 - cur))) =
          m ++ [(w, List.range' cur (min (share total d c) (d + 1 - cur)))] :=
        setKey_of_lookup_none m w _ hw_none
      rw [hrw]
      set rr := List.range' cur (min (share total d c) (d + 1 - cur)) with hrr
      set m1 := m ++ [(w, rr)] with hm1
      set cur1 := min (cur + share total d c) (d + 1) with hcur1
      have h1' : 1 ≤ cur1 := by omega
      have h2' : cur1 ≤ d + 1 := by omega
      have hcc : cur ≤ cur1 := by omega
      have hfresh' : ∀ p' ∈ wc', lookupKey m1 p'.1 = none := by
        intro p' hp'
        have hne : p'.1 ≠ w := by
          intro hh
          exact hw_notin (hh ▸ List.mem_map_of_mem Prod.fst hp')
        rw [hm1, lookupKey_append_right m _ _ (hfresh p' (List.mem_cons_of_mem _ hp'))]
        simp [lookupKey, hne]
      obtain ⟨ihA, ihB, ihC, ⟨S', hS'sub, hS'keys⟩, ihPres, ihPresence⟩ :=
        ih m1 cur1 h1' h2' hnd' hfresh'
      have hfaces1 : faces m1 = faces m ++ rr := by
        rw [hm1, faces_append]
        simp [faces]
      have hkeys1 : keys m1 = keys m ++ [w] := by
        rw [hm1, keys_append]
        simp [keys]
      have hrrlen : rr = List.range' cur (cur1 - cur) := by
        rw [hrr]
        congr 1
        omega
      refine ⟨le_trans hcc ihA, ihB, ?_, ?_, ?_, ?_⟩
      · have harith : ((wc'.foldl (allocStep total d) (m1, cur1)).2 - cur1) + (cur1 - cur) =
            (wc'.foldl (allocStep total d) (m1, cur1)).2 - cur := by omega
        rw [ihC, hfaces1, hrrlen, List.append_assoc]
        have hra := List.range'_append cur (cur1 - cur)
          ((wc'.foldl (allocStep total d) (m1, cur1)).2 - cur1) 1
        simp only [one_mul, Nat.mul_one] at hra
        rw [show cur + (cur1 - cur) = cur1 from by omega] at hra
        rw [hra, harith]
      · refine ⟨w :: S', List.Sublist.cons₂ w hS'sub, ?_⟩
        rw [hS'keys, hkeys1, List.append_assoc]
        rfl
      · intro w' v hv
        exact ihPres w' v (by
          rw [hm1]
          exact lookupKey_append_left m _ w' v hv)
      · intro hx p' hp'
        rcases List.mem_cons.mp hp' with hhead | htail
        · subst hhead
          have hrrne : rr ≠ [] := by
            rw [hrr]
            simp only [ne_eq, List.range'_eq_nil]
            omega
          refine ⟨rr, ?_, hrrne⟩
          apply ihPres
          rw [hm1, lookupKey_append_right m _ _ hw_none]
          simp [lookupKey]
        · apply ihPresence _ p' htail
          intro i hi
          have hxi := hx (i + 1) (by simpa using Nat.succ_lt_succ hi)
          simp only [List.take_succ_cons, List.map_cons, List.sum_cons] at hxi
          omega
    · rw [if_neg hcd]
      have hcur : cur = d + 1 := by omega
      have hcur1 : min (cur + share total d c) (d + 1) = cur := by omega
      rw [hcur1]
      obtain ⟨ihA, ihB, ihC, ⟨S', hS'sub, hS'keys⟩, ihPres, ihPresence⟩ :=
        ih m cur h1 h2 hnd' (fun p' hp' => hfresh p' (List.mem_cons_of_mem _ hp'))
      refine ⟨ihA, ihB, ihC, ⟨S', List.sublist_cons_of_sublist _ hS'sub, hS'keys⟩, ihPres, ?_⟩
      intro hx p' hp'
      have hx0 := hx 0 (by simp)
      simp at hx0
      omega



theorem lookupKey_eq_none_iff {κ β : Type} [DecidableEq κ]
    (m : List (κ × β)) (k : κ) :
    lookupKey m k = none ↔ k ∉ m.map Prod.fst := by
  induction m with
  | nil => simp [lookupKey]
  | cons p rest ih =>
    obtain ⟨k1, v1⟩ := p
    by_cases hk : k = k1
    · simp [lookupKey, hk]
    · simp [lookupKey, hk, ih]

theorem extendKey_keys (m : DieMap) (k : Token) (u : List Nat) :
    keys (extendKey m k u) = keys m := by
  induction m with
  | nil => rfl
  | cons p rest ih =>
    obtain ⟨k1, v1⟩ := p
    by_cases hk : k = k1
    · simp [extendKey, keys, hk]
    · simp [extendKey, keys, hk]
      simpa [keys] using ih

theorem extendKey_faces (m : DieMap) (k : Token) (u : List Nat) (v : List Nat)
    (h : lookupKey m k = some v) :
    (faces (extendKey m k u)).Perm (faces m ++ u) := by
  induction m with
  | nil => simp [lookupKey] at h
  | cons p rest ih =>
    obtain ⟨k1, v1⟩ := p
    by_cases hk : k = k1
    · simp only [extendKey, if_pos hk]
      simp only [faces, List.map_cons, List.flatten_cons]
      rw [List.append_assoc, List.append_assoc]
      exact List.Perm.append_left v1
        (@List.perm_append_comm Nat u ((List.map Prod.snd rest).flatten))
    · simp only [lookupKey, if_neg hk] at h
      simp only [extendKey, if_neg hk]
      simp only [faces, List.map_cons, List.flatten_cons]
      rw [List.append_assoc]
      exact List.Perm.append_left v1 (by
        have := ih h
        simpa [faces] using this)

theorem extendKey_lookup_eq (m : DieMap) (k : Token) (u : List Nat) (v : List Nat)
    (h : lookupKey m k = some v) :
    lookupKey (extendKey m k u) k = some (v ++ u) := by
  induction m with
  | nil => simp [lookupKey] at h
  | cons p rest ih =>
    obtain ⟨k1, v1⟩ := p
    by_cases hk : k = k1
    · simp [lookupKey, hk] at h
      simp [extendKey, lookupKey, hk, h]
    · simp [lookupKey, hk] at h
      simp [extendKey, lookupKey, hk, ih h]

theorem extendKey_lookup_ne (m : DieMap) (k : Token) (u : List Nat) (k' : Token)
    (h : k' ≠ k) :
    lookupKey (extendKey m k u) k' = lookupKey m k' := by
  induction m with
  | nil => rfl
  | cons p rest ih =>
    obtain ⟨k1, v1⟩ := p
    by_cases hk : k = k1
    · subst hk
      simp [extendKey, lookupKey, h]
    · by_cases hk' : k' = k1
      · simp [extendKey, lookupKey, hk, hk']
      · simp [extendKey, lookupKey, hk, hk', ih]

theorem createSingleDieMapping_master (wc : Freqs) (d : Nat)
    (hne : wc ≠ []) (hpos : ∀ p ∈ wc, 0 < p.2)
    (hnd : (wc.map Prod.fst).Nodup) (hd : 1 ≤ d) :
    ∃ m, createSingleDieMapping wc d = some m ∧
      (faces m).Perm (List.range' 1 d) ∧
      (keys m).Nodup ∧ keys m ⊆ wc.map Prod.fst ∧
      ((∀ i, i < wc.length →
          1 + ((wc.take i).map (fun p => share ((wc.map Prod.snd).sum) d p.2)).sum ≤ d) →
        ∀ p ∈ wc, ∃ v, lookupKey m p.1 = some v ∧ v ≠ []) := by
  match wc, hne with
  | (w0, c0) :: rest, _ =>
  have hc0 : 0 < c0 := hpos (w0, c0) (by simp)
  have htot : (((w0, c0) :: rest).map Prod.snd).sum ≠ 0 := by
    simp only [List.map_cons, List.sum_cons]
    omega
  set total := (((w0, c0) :: rest).map Prod.snd).sum with htotal
  have hmaster := allocLoop_master total d ((w0, c0) :: rest) [] 1 (le_refl 1)
    (by omega) hnd (fun p _ => rfl)
  obtain ⟨hA, hB, hC, ⟨S, hSsub, hSkeys⟩, hPres, hPresence⟩ := hmaster
  set stp := ((w0, c0) :: rest).foldl (allocStep total d) ([], 1) with hstp
  have hfold : ((w0, c0) :: rest).foldl (allocStep total d) ([], 1) = (stp.1, stp.2) := rfl
  have hshape := createSingleDieMapping_shape w0 c0 rest d stp.1 stp.2 htot hfold
  have hCfaces : faces stp.1 = List.range' 1 (stp.2 - 1) := by
    simpa [faces] using hC
  have hkeysS : keys stp.1 = S := by simpa [keys] using hSkeys
  by_cases hfin : stp.2 ≤ d
  · rw [if_pos hfin] at hshape
    have hremne : List.range' stp.2 (d + 1 - stp.2) ≠ [] := by
      simp only [ne_eq, List.range'_eq_nil]
      omega
    have hjoin : List.range' 1 (stp.2 - 1) ++ List.range' stp.2 (d + 1 - stp.2) =
        List.range' 1 d := by
      have hra := List.range'_append 1 (stp.2 - 1) (d + 1 - stp.2) 1
      simp only [one_mul, Nat.mul_one] at hra
      rw [show 1 + (stp.2 - 1) = stp.2 from by omega] at hra
      rw [hra]
      congr 1
      omega
    by_cases hlk : (lookupKey stp.1 w0).isSome = true
    · obtain ⟨v0, hv0⟩ := Option.isSome_iff_exists.mp hlk
      rw [if_pos hlk] at hshape
      refine ⟨extendKey stp.1 w0 (List.range' stp.2 (d + 1 - stp.2)), hshape, ?_, ?_, ?_, ?_⟩
      · refine (extendKey_faces stp.1 w0 _ v0 hv0).trans ?_
        rw [hCfaces, hjoin]
      · rw [extendKey_keys, hkeysS]
        exact hSsub.nodup hnd
      · rw [extendKey_keys, hkeysS]
        exact hSsub.subset
      · intro hx p hp
        obtain ⟨v, hv, hvne⟩ := hPresence (by simpa using hx) p hp
        by_cases hpw : p.1 = w0
        · rw [hpw] at hv ⊢
          rw [extendKey_lookup_eq stp.1 w0 _ v0 hv0]
          refine ⟨v0 ++ _, rfl, ?_⟩
          simp [hremne]
        · rw [extendKey_lookup_ne stp.1 w0 _ p.1 hpw]
          exact ⟨v, hv, hvne⟩
    · have hlk0 : lookupKey stp.1 w0 = none := by
        cases h : lookupKey stp.1 w0 with
        | none => rfl
        | some v => rw [h] at hlk; simp at hlk
      rw [if_neg hlk] at hshape
      rw [setKey_of_lookup_none stp.1 w0 _ hlk0] at hshape
      have hw0S : w0 ∉ S := by
        rw [lookupKey_eq_none_iff] at hlk0
        rw [show S = keys stp.1 from hkeysS.symm]
        exact hlk0
      refine ⟨stp.1 ++ [(w0, List.range' stp.2 (d + 1 - stp.2))], hshape, ?_, ?_, ?_, ?_⟩
      · rw [faces_append, hCfaces]
        have : faces [(w0, List.range' stp.2 (d + 1 - stp.2))] =
            List.range' stp.2 (d + 1 - stp.2) := by simp [faces]
        rw [this, hjoin]
      · rw [keys_append, hkeysS]
        have h1 : keys [(w0, List.range' stp.2 (d + 1 - stp.2))] = [w0] := rfl
        rw [h1]
        rw [List.nodup_append]
        refine ⟨hSsub.nodup hnd, List.nodup_singleton w0, ?_⟩
        intro a haS hamem
        simp at hamem
        exact hw0S (hamem ▸ haS)
      · rw [keys_append, hkeysS]
        intro a ha
        rcases List.mem_append.mp ha with h | h
        · exact hSsub.subset h
        · simp [keys] at h
          subst h
          simp
      · intro hx p hp
        by_cases hpw : p.1 = w0
        · rw [hpw, lookupKey_append_right stp.1 _ w0 hlk0]
          refine ⟨List.range' stp.2 (d + 1 - stp.2), ?_, hremne⟩
          simp [lookupKey]
        · obtain ⟨v, hv, hvne⟩ := hPresence (by simpa using hx) p hp
          exact ⟨v, lookupKey_append_left stp.1 _ p.1 v hv, hvne⟩
  · rw [if_neg hfin] at hshape
    have hfin' : stp.2 = d + 1 := by omega
    refine ⟨stp.1, hshape, ?_, ?_, ?_, ?_⟩
    · rw [hCfaces, hfin']
      simp
    · rw [hkeysS]
      exact hSsub.nodup hnd
    · rw [hkeysS]
      exact hSsub.subset
    · intro hx p hp
      exact hPresence (by simpa using hx) p hp



theorem mem_faces (m : DieMap) (f : Nat) : f ∈ faces m ↔ ∃ e ∈ m, f ∈ e.2 := by
  simp only [faces, List.mem_flatten, List.mem_map]
  constructor
  · rintro ⟨l, ⟨a, ha, rfl⟩, hf⟩
    exact ⟨a, ha, hf⟩
  · rintro ⟨e, he, hf⟩
    exact ⟨e.2, ⟨e, he, rfl⟩, hf⟩

theorem pairwise_of_faces_nodup (m : DieMap) (h : (faces m).Nodup) :
    List.Pairwise (fun a b => ∀ f, f ∈ a.2 → f ∉ b.2) m := by
  induction m with
  | nil => exact List.Pairwise.nil
  | cons e rest ih =>
    rw [show faces (e :: rest) = e.2 ++ faces rest from by simp [faces]] at h
    rw [List.nodup_append] at h
    obtain ⟨h1, h2, hdisj⟩ := h
    refine List.Pairwise.cons ?_ (ih h2)
    intro b hb f hf hfb
    exact hdisj hf ((mem_faces rest f).mpr ⟨b, hb, hfb⟩)

theorem mostCommon_perm (nw : Freqs) : (mostCommon nw).Perm nw := by
  unfold mostCommon
  have h := (List.perm_insertionSort rankLE nw.enum).map Prod.snd
  simpa [List.enum_map_snd] using h

theorem mostCommon_length (nw : Freqs) : (mostCommon nw).length = nw.length :=
  (mostCommon_perm nw).length_eq

theorem noExhaustion_spec (cw : Freqs) (d : Nat) (h : noExhaustion cw d = true) :
    ∀ i, i < cw.length →
      1 + ((cw.take i).map (fun p => share ((cw.map Prod.snd).sum) d p.2)).sum ≤ d := by
  intro i hi
  unfold noExhaustion at h
  rw [List.all_eq_true] at h
  have hh := h i (List.mem_range.mpr hi)
  simpa using hh

theorem truncated_wf (nw : Freqs) (d : Nat) (hne : nw ≠ [])
    (hpos : ∀ p ∈ nw, 0 < p.2) (hnd : (nw.map Prod.fst).Nodup) (hd : 1 ≤ d) :
    (mostCommon nw).take d ≠ [] ∧
    (∀ p ∈ (mostCommon nw).take d, 0 < p.2) ∧
    (((mostCommon nw).take d).map Prod.fst).Nodup := by
  have hperm := mostCommon_perm nw
  refine ⟨?_, ?_, ?_⟩
  · have hlen : ((mostCommon nw).take d).length = min d nw.length := by
      rw [List.length_take, mostCommon_length]
    have hpos' : 0 < nw.length := List.length_pos.mpr hne
    intro hnil
    rw [hnil] at hlen
    simp at hlen
    omega
  · intro p hp
    exact hpos p (hperm.mem_iff.mp ((List.take_sublist d (mostCommon nw)).subset hp))
  · have hmap : (((mostCommon nw).take d).map Prod.fst).Sublist ((mostCommon nw).map Prod.fst) :=
      (List.take_sublist d (mostCommon nw)).map Prod.fst
    exact hmap.nodup ((hperm.map Prod.fst).symm.nodup hnd)

theorem foldl_preserve {α β : Type} (P : α → Prop) (f : α → β → α)
    (hstep : ∀ a b, P a → P (f a b)) :
    ∀ (l : List β) (a : α), P a → P (l.foldl f a) := by
  intro l
  induction l with
  | nil => intro a h; exact h
  | cons b l ih => intro a h; exact ih _ (hstep a b h)

theorem bumpCount_ne_nil {κ : Type} [DecidableEq κ] (m : List (κ × Nat)) (k : κ) :
    bumpCount m k ≠ [] := by
  cases m with
  | nil => simp [bumpCount]
  | cons p rest =>
    obtain ⟨k1, c⟩ := p
    simp only [bumpCount]
    split <;> simp

theorem bumpCount_pos {κ : Type} [DecidableEq κ] (m : List (κ × Nat)) (k : κ)
    (hpos : ∀ p ∈ m, 0 < p.2) : ∀ p ∈ bumpCount m k, 0 < p.2 := by
  induction m with
  | nil =>
    intro p hp
    simp [bumpCount] at hp
    subst hp
    simp
  | cons q rest ih =>
    obtain ⟨k1, c⟩ := q
    intro p hp
    by_cases hk : k = k1
    · simp [bumpCount, hk] at hp
      rcases hp with h | h
      · subst h; simp
      · exact hpos p (List.mem_cons_of_mem _ h)
    · simp only [bumpCount, if_neg hk] at hp
      rcases List.mem_cons.mp hp with h | h
      · subst h
        exact hpos (k1, c) (by simp)
      · exact ih (fun q hq => hpos q (List.mem_cons_of_mem _ hq)) p h

theorem bumpCount_fst {κ : Type} [DecidableEq κ] (m : List (κ × Nat)) (k : κ) :
    (bumpCount m k).map Prod.fst =
      if k ∈ m.map Prod.fst then m.map Prod.fst else m.map Prod.fst ++ [k] := by
  induction m with
  | nil => simp [bumpCount]
  | cons q rest ih =>
    obtain ⟨k1, c⟩ := q
    by_cases hk : k = k1
    · simp [bumpCount, hk]
    · simp only [bumpCount, if_neg hk, List.map_cons]
      rw [ih]
      by_cases hmem : k ∈ rest.map Prod.fst
      · rw [if_pos hmem, if_pos (by simp [hmem])]
      · rw [if_neg hmem, if_neg (by simp [hk, hmem]), List.cons_append]

theorem bumpCount_nodup {κ : Type} [DecidableEq κ] (m : List (κ × Nat)) (k : κ)
    (h : (m.map Prod.fst).Nodup) : ((bumpCount m k).map Prod.fst).Nodup := by
  rw [bumpCount_fst]
  split
  · exact h
  · next h' =>
    refine List.Nodup.append h (List.nodup_singleton k) ?_
    intro a ha hb
    simp at hb
    exact h' (hb ▸ ha)

/-- Well-formedness of every per-context counter in a transition table. -/
def wfTable (tr : TransTable) : Prop :=
  ∀ e ∈ tr, e.2 ≠ [] ∧ (∀ p ∈ e.2, 0 < p.2) ∧ (e.2.map Prod.fst).Nodup

theorem bumpTrans_wf (tr : TransTable) (c : Ctx) (n : Token) (h : wfTable tr) :
    wfTable (bumpTrans tr c n) := by
  induction tr with
  | nil =>
    intro e he
    simp [bumpTrans] at he
    subst he
    refine ⟨by simp, ?_, by simp⟩
    intro p hp
    simp at hp
    subst hp
    simp
  | cons q rest ih =>
    obtain ⟨c1, m⟩ := q
    by_cases hc : c = c1
    · intro e he
      simp only [bumpTrans, if_pos hc] at he
      rcases List.mem_cons.mp he with hh | hh
      · subst hh
        obtain ⟨hm1, hm2, hm3⟩ := h (c1, m) (by simp)
        exact ⟨bumpCount_ne_nil m n, bumpCount_pos m n hm2, bumpCount_nodup m n hm3⟩
      · exact h e (List.mem_cons_of_mem _ hh)
    · intro e he
      simp only [bumpTrans, if_neg hc] at he
      rcases List.mem_cons.mp he with hh | hh
      · subst hh
        exact h (c1, m) (by simp)
      · exact ih (fun e' he' => h e' (List.mem_cons_of_mem _ he')) e hh

theorem train_wf (order : Nat) (texts : List String) : wfTable (train order texts) := by
  unfold train
  refine foldl_preserve wfTable (trainText order) ?_ texts [] ?_
  · intro tr t htr
    unfold trainText
    refine foldl_preserve wfTable _ ?_ _ tr htr
    intro tr' i htr'
    exact bumpTrans_wf _ _ _ htr'
  · intro e he
    simp at he

theorem allocFor_take (nw : Freqs) (d : Nat) :
    allocFor nw d = createSingleDieMapping ((mostCommon nw).take d) d := by
  unfold allocFor
  by_cases h : (mostCommon nw).length ≤ d
  · rw [if_pos h, List.take_of_length_le h]
  · rw [if_neg h]

theorem generateDiceMapping_spec (d : Nat) :
    ∀ (tr : TransTable) (dm : List (Ctx × DieMap)), generateDiceMapping tr d = some dm →
      ∀ (i : Nat) (s : Ctx) (nw : Freqs), tr[i]? = some (s, nw) →
        ∃ wm, dm[i]? = some (s, wm) ∧ allocFor nw d = some wm := by
  intro tr
  induction tr with
  | nil =>
    intro dm h i s nw hi
    simp at hi
  | cons q rest ih =>
    intro dm h i s nw hi
    obtain ⟨s0, nw0⟩ := q
    cases ha : allocFor nw0 d with
    | none => rw [show generateDiceMapping ((s0, nw0) :: rest) d =
        (match allocFor nw0 d, generateDiceMapping rest d with
         | some m, some ms => some ((s0, m) :: ms)
         | _, _ => none) from rfl, ha] at h
              cases generateDiceMapping rest d <;> simp at h
    | some m =>
      cases hrec : generateDiceMapping rest d with
      | none => rw [show generateDiceMapping ((s0, nw0) :: rest) d =
          (match allocFor nw0 d, generateDiceMapping rest d with
           | some m, some ms => some ((s0, m) :: ms)
           | _, _ => none) from rfl, ha, hrec] at h
                simp at h
      | some ms =>
        rw [show generateDiceMapping ((s0, nw0) :: rest) d =
          (match allocFor nw0 d, generateDiceMapping rest d with
           | some m, some ms => some ((s0, m) :: ms)
           | _, _ => none) from rfl, ha, hrec] at h
        simp only [Option.some.injEq] at h
        subst h
        cases i with
        | zero =>
          simp only [List.getElem?_cons_zero, Option.some.injEq, Prod.mk.injEq] at hi
          obtain ⟨hs, hnw⟩ := hi
          subst hs
          subst hnw
          exact ⟨m, by simp, ha⟩
        | succ i =>
          simp only [List.getElem?_cons_succ] at hi ⊢
          exact ih ms hrec i s nw hi



/-- Claim C10: for every non-empty insertion-ordered frequency list with
positive counts and distinct tokens and any `dieSides ≥ 1`, the single-die
allocation succeeds and its face lists partition `{1,…,dieSides}` exactly:
every face in that range is assigned, no face outside it, and no face occurs
in two lists — unconditionally, even under early face exhaustion. -/
theorem claim_C10 (wc : Freqs) (d : Nat) (hne : wc ≠ [])
    (hpos : ∀ p ∈ wc, 0 < p.2) (hnd : (wc.map Prod.fst).Nodup) (hd : 1 ≤ d) :
    ∃ m, createSingleDieMapping wc d = some m ∧
      (∀ f, (∃ e ∈ m, f ∈ e.2) ↔ (1 ≤ f ∧ f ≤ d)) ∧
      List.Pairwise (fun a b => ∀ f, f ∈ a.2 → f ∉ b.2) m := by
  obtain ⟨m, hm, hperm, _, _, _⟩ := createSingleDieMapping_master wc d hne hpos hnd hd
  refine ⟨m, hm, ?_, ?_⟩
  · intro f
    rw [← mem_faces m f, hperm.mem_iff, List.mem_range'_1]
    omega
  · exact pairwise_of_faces_nodup m (hperm.symm.nodup (List.nodup_range' 1 d))

/-- Witness for C10 at a concrete frequency list. -/
theorem claim_C10_witness :
    ∃ m, createSingleDieMapping [("b", 1), ("c", 1)] 6 = some m ∧
      (∀ f, (∃ e ∈ m, f ∈ e.2) ↔ (1 ≤ f ∧ f ≤ 6)) ∧
      List.Pairwise (fun a b => ∀ f, f ∈ a.2 → f ∉ b.2) m :=
  claim_C10 [("b", 1), ("c", 1)] 6 (by decide) (by decide) (by decide) (by decide)

/-- Claim C1: for every context of a die mapping generated from a trained
transition table, if the retained ranked list shows no early face exhaustion
then the context's face lists cover exactly `{1,…,dieSides}` with no face in
two lists and none missing. -/
theorem claim_C1 (texts : List String) (order d i : Nat) (dm : List (Ctx × DieMap))
    (s : Ctx) (nw : Freqs)
    (hgen : generateDiceMapping (train order texts) d = some dm)
    (hentry : (train order texts)[i]? = some (s, nw))
    (hnex : noExhaustion ((mostCommon nw).take d) d = true) :
    ∃ wm, dm[i]? = some (s, wm) ∧
      (∀ f, (∃ e ∈ wm, f ∈ e.2) ↔ (1 ≤ f ∧ f ≤ d)) ∧
      List.Pairwise (fun a b => ∀ f, f ∈ a.2 → f ∉ b.2) wm := by
  obtain ⟨wm, hwm, halloc⟩ :=
    generateDiceMapping_spec d (train order texts) dm hgen i s nw hentry
  obtain ⟨hne, hpos, hnd⟩ := train_wf order texts (s, nw) (List.getElem?_mem hentry)
  rw [allocFor_take] at halloc
  rcases Nat.eq_zero_or_pos d with hd0 | hd
  · subst hd0
    rw [List.take_zero] at halloc
    have h0 : createSingleDieMapping ([] : Freqs) 0 = some [] := rfl
    rw [h0] at halloc
    obtain rfl : ([] : DieMap) = wm := by simpa using halloc
    refine ⟨[], hwm, ?_, List.Pairwise.nil⟩
    intro f
    simp
    omega
  · obtain ⟨tne, tpos, tnd⟩ := truncated_wf nw d hne hpos hnd hd
    obtain ⟨m, hm, hperm, _, _, _⟩ :=
      createSingleDieMapping_master ((mostCommon nw).take d) d tne tpos tnd hd
    rw [hm] at halloc
    obtain rfl : m = wm := by simpa using halloc
    refine ⟨m, hwm, ?_, ?_⟩
    · intro f
      rw [← mem_faces m f, hperm.mem_iff, List.mem_range'_1]
      omega
    · exact pairwise_of_faces_nodup m (hperm.symm.nodup (List.nodup_range' 1 d))

/-- Witness for C1 on the corpus `"a b. a c."` with `order = 1`,
`dieSides = 6`, at the context `"a"`. -/
theorem claim_C1_witness :
    ∃ wm, ([(["a"], [("b", [1, 2, 3]), ("c", [4, 5, 6])]),
           (["b"], [(".", [1, 2, 3, 4, 5, 6])]),
           (["."], [("a", [1, 2, 3, 4, 5, 6])]),
           (["c"], [(".", [1, 2, 3, 4, 5, 6])])] : List (Ctx × DieMap))[0]? =
        some (["a"], wm) ∧
      (∀ f, (∃ e ∈ wm, f ∈ e.2) ↔ (1 ≤ f ∧ f ≤ 6)) ∧
      List.Pairwise (fun a b => ∀ f, f ∈ a.2 → f ∉ b.2) wm :=
  claim_C1 ["a b. a c."] 1 6 0 _ ["a"] [("b", 1), ("c", 1)]
    (by decide) (by decide) (by decide)

/-- Claim C2 (amended): a token present in the output die mapping always has a
non-empty face list, and when the face budget is never exhausted before a
retained token is reached (`noExhaustion`), every retained token of the
context appears in the output with at least one face.  (Without that proviso a
retained token can be omitted, as the counterexample shows.) -/
theorem claim_C2_amended (texts : List String) (order d i : Nat)
    (dm : List (Ctx × DieMap)) (s : Ctx) (nw : Freqs)
    (hgen : generateDiceMapping (train order texts) d = some dm)
    (hentry : (train order texts)[i]? = some (s, nw))
    (hnex : noExhaustion ((mostCommon nw).take d) d = true) :
    ∃ wm, dm[i]? = some (s, wm) ∧
      ∀ p ∈ (mostCommon nw).take d, ∃ v, lookupKey wm p.1 = some v ∧ v ≠ [] := by
  obtain ⟨wm, hwm, halloc⟩ :=
    generateDiceMapping_spec d (train order texts) dm hgen i s nw hentry
  obtain ⟨hne, hpos, hnd⟩ := train_wf order texts (s, nw) (List.getElem?_mem hentry)
  rw [allocFor_take] at halloc
  rcases Nat.eq_zero_or_pos d with hd0 | hd
  · subst hd0
    refine ⟨wm, hwm, ?_⟩
    intro p hp
    rw [List.take_zero] at hp
    simp at hp
  · obtain ⟨tne, tpos, tnd⟩ := truncated_wf nw d hne hpos hnd hd
    obtain ⟨m, hm, _, _, _, hpresence⟩ :=
      createSingleDieMapping_master ((mostCommon nw).take d) d tne tpos tnd hd
    rw [hm] at halloc
    obtain rfl : m = wm := by simpa using halloc
    exact ⟨m, hwm, hpresence (noExhaustion_spec _ d hnex)⟩

/-- Witness for the amended C2 on the corpus `"a b. a c."`. -/
theorem claim_C2_amended_witness :
    ∃ wm, ([(["a"], [("b", [1, 2, 3]), ("c", [4, 5, 6])]),
           (["b"], [(".", [1, 2, 3, 4, 5, 6])]),
           (["."], [("a", [1, 2, 3, 4, 5, 6])]),
           (["c"], [(".", [1, 2, 3, 4, 5, 6])])] : List (Ctx × DieMap))[0]? =
        some (["a"], wm) ∧
      ∀ p ∈ (mostCommon [("b", 1), ("c", 1)]).take 6,
        ∃ v, lookupKey wm p.1 = some v ∧ v ≠ [] :=
  claim_C2_amended ["a b. a c."] 1 6 0 _ ["a"] [("b", 1), ("c", 1)]
    (by decide) (by decide) (by decide)

/-- Claim C3: a context with more distinct next-tokens than `dieSides` yields
at most `dieSides` entries, and the retained list is exactly the first
`dieSides` entries of the (count-descending, insertion-order-tie-broken)
ranking of the context's counter. -/
theorem claim_C3 (texts : List String) (order d i : Nat) (dm : List (Ctx × DieMap))
    (s : Ctx) (nw : Freqs)
    (hgen : generateDiceMapping (train order texts) d = some dm)
    (hentry : (train order texts)[i]? = some (s, nw))
    (hmany : d < nw.length) :
    ∃ wm, dm[i]? = some (s, wm) ∧ wm.length ≤ d ∧
      ((mostCommon nw).take d).length = d ∧
      ∃ ranked, ranked.Perm nw.enum ∧ List.Sorted rankLE ranked ∧
        (mostCommon nw).take d = (ranked.take d).map Prod.snd := by
  obtain ⟨wm, hwm, halloc⟩ :=
    generateDiceMapping_spec d (train order texts) dm hgen i s nw hentry
  obtain ⟨hne, hpos, hnd⟩ := train_wf order texts (s, nw) (List.getElem?_mem hentry)
  rw [allocFor_take] at halloc
  have hlen : ((mostCommon nw).take d).length = d := by
    rw [List.length_take, mostCommon_length]
    omega
  have hranked : ∃ ranked, ranked.Perm nw.enum ∧ List.Sorted rankLE ranked ∧
      (mostCommon nw).take d = (ranked.take d).map Prod.snd := by
    refine ⟨List.insertionSort rankLE nw.enum, List.perm_insertionSort _ _,
      List.sorted_insertionSort _ _, ?_⟩
    rw [show mostCommon nw = (List.insertionSort rankLE nw.enum).map Prod.snd from rfl,
      ← List.map_take]
  rcases Nat.eq_zero_or_pos d with hd0 | hd
  · subst hd0
    rw [List.take_zero] at halloc
    have h0 : createSingleDieMapping ([] : Freqs) 0 = some [] := rfl
    rw [h0] at halloc
    obtain rfl : ([] : DieMap) = wm := by simpa using halloc
    exact ⟨[], hwm, by simp, hlen, hranked⟩
  · obtain ⟨tne, tpos, tnd⟩ := truncated_wf nw d hne hpos hnd hd
    obtain ⟨m, hm, _, hknd, hksub, _⟩ :=
      createSingleDieMapping_master ((mostCommon nw).take d) d tne tpos tnd hd
    rw [hm] at halloc
    obtain rfl : m = wm := by simpa using halloc
    refine ⟨m, hwm, ?_, hlen, hranked⟩
    have hsubperm := List.subperm_of_subset hknd hksub
    have h1 := hsubperm.length_le
    rw [List.length_map] at h1
    have h2 : (keys m).length = m.length := List.length_map m Prod.fst
    rw [show ((mostCommon nw).take d).length = d from hlen] at h1
    omega

/-- Witness for C3: context `"x"` has seven distinct next-tokens and
`dieSides = 6`. -/
theorem claim_C3_witness :
    ∃ wm, ([(["x"], [("a", [1]), ("b", [2]), ("c", [3]), ("d", [4]), ("e", [5]), ("f", [6])]),
           (["a"], [("x", [1, 2, 3, 4, 5, 6])]), (["b"], [("x", [1, 2, 3, 4, 5, 6])]),
           (["c"], [("x", [1, 2, 3, 4, 5, 6])]), (["d"], [("x", [1, 2, 3, 4, 5, 6])]),
           (["e"], [("x", [1, 2, 3, 4, 5, 6])]),
           (["f"], [("x", [1, 2, 3, 4, 5, 6])])] : List (Ctx × DieMap))[0]? =
        some (["x"], wm) ∧ wm.length ≤ 6 ∧
      ((mostCommon [("a", 1), ("b", 1), ("c", 1), ("d", 1), ("e", 1), ("f", 1), ("g", 1)]).take 6).length = 6 ∧
      ∃ ranked,
        ranked.Perm ([("a", 1), ("b", 1), ("c", 1), ("d", 1), ("e", 1), ("f", 1), ("g", 1)] : Freqs).enum ∧
        List.Sorted rankLE ranked ∧
        (mostCommon [("a", 1), ("b", 1), ("c", 1), ("d", 1), ("e", 1), ("f", 1), ("g", 1)]).take 6 =
          (ranked.take 6).map Prod.snd :=
  claim_C3 ["x a x b x c x d x e x f x g"] 1 6 0 _ ["x"]
    [("a", 1), ("b", 1), ("c", 1), ("d", 1), ("e", 1), ("f", 1), ("g", 1)]
    (by decide) (by decide) (by decide)



/-- Claim C4 (amended): `!` and `?` are kept as distinct tokens in the
transition table and die mapping (training on `"a b!"` records the pair under
`"!"`, not `"."`); only the sampler identifies the three terminals, ending the
sentence whenever the selected token is `"."`, `"!"` or `"?"`. -/
theorem claim_C4_amended :
    (countTrans (train 1 ["a b!"]) ["b"] "!" = 1 ∧
     countTrans (train 1 ["a b!"]) ["b"] "." = 0) ∧
    (∀ (wm : DieMap) (roll : Nat) (w : Token), selectNext wm roll = some w →
      (w = "." ∨ w = "!" ∨ w = "?") → sampleStep wm roll = SampleOutcome.terminal) := by
  refine ⟨⟨by decide, by decide⟩, ?_⟩
  intro wm roll w hsel hw
  have hne : w ≠ "" := by
    rcases hw with h | h | h <;> subst h <;> decide
  simp only [sampleStep, hsel]
  rw [if_neg hne, if_pos hw]

/-- Witness for the amended C4. -/
theorem claim_C4_amended_witness :
    sampleStep [("!", [1, 2, 3, 4, 5, 6])] 3 = SampleOutcome.terminal ∧
    countTrans (train 1 ["a b!"]) ["b"] "!" = 1 :=
  ⟨claim_C4_amended.2 [("!", [1, 2, 3, 4, 5, 6])] 3 "!" (by decide)
     (Or.inr (Or.inl rfl)),
   claim_C4_amended.1.1⟩

/-- Claim C5 (amended): the sampler's roll is drawn uniformly from the fixed
support `{1,…,6}` of `random.randint(1, 6)` — not from `[1, dieSides]` of the
mapping being replayed — and the roll selects the first token in stored order
whose face list contains it. -/
theorem claim_C5_amended :
    samplerRollSupport = List.range' 1 6 ∧
    ∀ (wm : DieMap) (roll i : Nat) (hi : i < wm.length),
      roll ∈ (wm.get ⟨i, hi⟩).2 →
      (∀ e ∈ wm.take i, roll ∉ e.2) →
      selectNext wm roll = some (wm.get ⟨i, hi⟩).1 := by
  refine ⟨rfl, ?_⟩
  intro wm
  induction wm with
  | nil =>
    intro roll i hi
    simp at hi
  | cons e rest ih =>
    intro roll i hi hmem hearlier
    cases i with
    | zero =>
      obtain ⟨w, rolls⟩ := e
      simp only [List.get] at hmem
      simp [selectNext, hmem]
    | succ i =>
      obtain ⟨w, rolls⟩ := e
      have hnotin : roll ∉ rolls := by
        have hh := hearlier (w, rolls) (by simp [List.take_succ_cons])
        simpa using hh
      simp only [selectNext, if_neg hnotin]
      have hi' : i < rest.length := by simpa using hi
      have hres := ih roll i hi' (by simpa using hmem) (fun e' he' =>
        hearlier e' (by simp [List.take_succ_cons, he']))
      simpa using hres

/-- Witness for the amended C5. -/
theorem claim_C5_amended_witness :
    samplerRollSupport = List.range' 1 6 ∧
    selectNext [("a", [1, 2]), ("b", [3])] 3 = some "b" :=
  ⟨claim_C5_amended.1, by
    have h := claim_C5_amended.2 [("a", [1, 2]), ("b", [3])] 3 1 (by decide)
      (by decide) (by decide)
    simpa using h⟩


end CampGames
